import Mathlib

/-!
Shallow embedding of the pgmigrate migration coordinator (pgmigrate.go).

The database driver, the Postgres server and the network are external
collaborators: every call that can fail at the driver level (open, lock,
table queries, per-transaction begin/exec/commit, unlock, close) is modelled
by an oracle field of type `ExecRes` saying whether that call succeeds or
fails with some error message.  The bookkeeping table `schema_migrations`
is modelled by a `DBState`: a flag saying whether the table exists and the
list of version rows it holds.  Wall-clock durations that appear in log
lines are not modelled; log lines are modelled up to their constant text,
the migration descriptor and the error message.
-/

set_option maxRecDepth 8000

namespace PgMigrate

/-- Migration mirrors the Go struct: version, name, up and down scripts,
and the session-scoped `applied` flag. -/
structure Migration where
  Version : Int
  Name : String
  Up : String
  Down : String
  applied : Bool := false
deriving DecidableEq

/-- `Migration.String` from the source: `"%d: %s"` in quotes. -/
def migString (g : Migration) : String :=
  "\x22" ++ toString g.Version ++ ": " ++ g.Name ++ "\x22"

/-- Migrator mirrors the Go struct: the connection url and the catalog `gs`. -/
structure Migrator where
  url : String
  gs : List Migration := []
deriving DecidableEq

/-- `NewMigrator` from the source: a migrator with the given url and no migrations. -/
def NewMigrator (url : String) : Migrator := { url := url, gs := [] }

/-- `Add` from the source: appends every given migration to the catalog,
unconditionally (no validation, no failure). -/
def Migrator.Add (m : Migrator) (gsNew : List Migration) : Migrator :=
  { m with gs := m.gs ++ gsNew }

/-! ### CRC32 (IEEE), as used by `hash/crc32.ChecksumIEEE` for the lock key -/

/-- One bit step of the reflected CRC-32 with polynomial 0xEDB88320. -/
def crcStep (c : Nat) : Nat :=
  if c % 2 = 1 then Nat.xor (c / 2) 0xEDB88320 else c / 2

/-- Fold one byte into the running CRC (eight bit steps). -/
def crcByte (crc b : Nat) : Nat :=
  crcStep (crcStep (crcStep (crcStep (crcStep (crcStep (crcStep (crcStep (Nat.xor crc b))))))))

/-- UTF-8 encoding of one character, as Go strings are byte sequences. -/
def utf8 (c : Char) : List Nat :=
  let n := c.toNat
  if n < 0x80 then [n]
  else if n < 0x800 then [0xC0 ||| (n >>> 6), 0x80 ||| (n &&& 0x3F)]
  else if n < 0x10000 then
    [0xE0 ||| (n >>> 12), 0x80 ||| ((n >>> 6) &&& 0x3F), 0x80 ||| (n &&& 0x3F)]
  else
    [0xF0 ||| (n >>> 18), 0x80 ||| ((n >>> 12) &&& 0x3F),
     0x80 ||| ((n >>> 6) &&& 0x3F), 0x80 ||| (n &&& 0x3F)]

/-- The bytes of a string (UTF-8). -/
def strBytes (s : String) : List Nat := s.data.flatMap utf8

/-- `crc32.ChecksumIEEE`: init 0xFFFFFFFF, fold bytes, final xor-out. -/
def crc32 (s : String) : Nat :=
  Nat.xor (List.foldl crcByte 0xFFFFFFFF (strBytes s)) 0xFFFFFFFF

/-- The advisory lock key: `crc32.ChecksumIEEE([]byte(m.url))`. -/
def lockId (m : Migrator) : Nat := crc32 m.url

/-! ### Driver oracles -/

/-- Outcome of one driver call: success, or failure with the driver's message. -/
inductive ExecRes where
  | ok
  | fail (msg : String)
deriving DecidableEq

def ExecRes.isOk : ExecRes → Bool
  | .ok => true
  | .fail _ => false

/-- Outcomes of the four driver calls inside one migration transaction:
`db.Begin`, the script `tx.Exec`, the bookkeeping `tx.Exec`, `tx.Commit`. -/
structure TxOracle where
  beginRes : ExecRes
  scriptRes : ExecRes
  writeRes : ExecRes
  commitRes : ExecRes
deriving DecidableEq

def TxOracle.allOk (o : TxOracle) : Bool :=
  o.beginRes.isOk && o.scriptRes.isOk && o.writeRes.isOk && o.commitRes.isOk

/-- The all-success transaction oracle. -/
def txOk : TxOracle := ⟨.ok, .ok, .ok, .ok⟩

/-- Outcomes of the session-level driver calls, in program order:
`sql.Open`, `pg_advisory_lock`, the table-existence query, `create table`,
the `select version from schema_migrations` query (row scanning and
`rows.Err` are collapsed into this one failure point),
`pg_advisory_unlock`, `db.Close`. -/
structure SessionOracle where
  openRes : ExecRes
  lockRes : ExecRes
  existsRes : ExecRes
  createRes : ExecRes
  queryRes : ExecRes
  unlockRes : ExecRes
  closeRes : ExecRes
deriving DecidableEq

/-- The all-success session oracle. -/
def soOk : SessionOracle := ⟨.ok, .ok, .ok, .ok, .ok, .ok, .ok⟩

/-- The all-success per-transaction oracle assignment. -/
def orcOk : Nat → TxOracle := fun _ => txOk

/-- The bookkeeping state: whether `schema_migrations` exists, and its rows. -/
structure DBState where
  hasTable : Bool
  versions : List Int
deriving DecidableEq

/-- Observable session events, for the teardown guarantee. -/
inductive Ev where
  | connected
  | locked
  | unlockAttempt (ok : Bool)
  | closed
deriving DecidableEq

/-! ### Reconciliation -/

/-- Reset every catalog flag to false (lines 122-125 of the source). -/
def resetFlags (gs : List Migration) : List Migration :=
  gs.map fun g => { g with applied := false }

/-- Mark the FIRST catalog entry whose version matches `v` (the inner loop
with `break`); `none` when no entry matches. -/
def markVersion (v : Int) : List Migration → Option (List Migration)
  | [] => none
  | g :: rest =>
    if g.Version = v then some ({ g with applied := true } :: rest)
    else (markVersion v rest).map (g :: ·)

/-- The missing-definition error (`fmt.Errorf`; the gs dump is abbreviated). -/
def missingMsg (v : Int) : String :=
  "unable to find migration for schema_migrations version " ++ toString v ++ "!"

/-- Walk the persisted versions in the order the query returned them,
marking each; on the first version with no catalog match, stop with the
error and the partially-marked catalog. -/
def reconcileLoop : List Migration → List Int → Option String × List Migration
  | gs, [] => (none, gs)
  | gs, v :: vs =>
    match markVersion v gs with
    | some gs' => reconcileLoop gs' vs
    | none => (some (missingMsg v), gs)

/-- The catalog sort (`sort.Slice` by ascending version). -/
def sortByVersion (gs : List Migration) : List Migration :=
  List.insertionSort (fun a b => a.Version ≤ b.Version) gs

/-- Descending sort used by revert's pending selection. -/
def sortByVersionDesc (gs : List Migration) : List Migration :=
  List.insertionSort (fun a b => b.Version ≤ a.Version) gs

/-- Ascending sort of the persisted versions (`order by version asc`). -/
def sortIntAsc (vs : List Int) : List Int :=
  List.insertionSort (fun a b : Int => a ≤ b) vs

/-! ### Per-migration transactional execution -/

def upFailLog (g : Migration) (e : String) : String :=
  "migrate up: fatal error error applying " ++ migString g ++ ": " ++ e

def downFailLog (g : Migration) (e : String) : String :=
  "migrate down: fatal error error reverting " ++ migString g ++ ": " ++ e

/-- One forward migration transaction (lines 177-199): begin, run the up
script, insert the version row, commit.  Any failure rolls back: the
returned state changes only when the commit succeeds. -/
def applyStep (st : List Int) (g : Migration) (o : TxOracle) :
    Except String (List Int) × List String :=
  match o.beginRes with
  | .fail e => (.error e, [])
  | .ok =>
    match o.scriptRes with
    | .fail e => (.error e, [upFailLog g e, "source: " ++ g.Up])
    | .ok =>
      match o.writeRes with
      | .fail e => (.error e, [upFailLog g e])
      | .ok =>
        match o.commitRes with
        | .fail e => (.error e, [upFailLog g e])
        | .ok => (.ok (st ++ [g.Version]), [])

/-- One backward migration transaction (lines 224-246): begin, run the down
script, delete the version row, commit. -/
def revertStep (st : List Int) (g : Migration) (o : TxOracle) :
    Except String (List Int) × List String :=
  match o.beginRes with
  | .fail e => (.error e, [])
  | .ok =>
    match o.scriptRes with
    | .fail e => (.error e, [downFailLog g e, "source: " ++ g.Down])
    | .ok =>
      match o.writeRes with
      | .fail e => (.error e, [downFailLog g e])
      | .ok =>
        match o.commitRes with
        | .fail e => (.error e, [downFailLog g e])
        | .ok => (.ok (st.filter (fun v => v != g.Version)), [])

/-- Result of an executor run: the returned error (none on success), the
bookkeeping rows, the migrations whose transaction was started, in order,
and the failure log lines. -/
structure RunOut where
  err : Option String
  st : List Int
  executed : List Migration
  logs : List String
deriving DecidableEq

/-- The forward loop (lines 169-202): stop before index `i ≥ n` when
`n > 0`; on a step error return it at once, keeping the pre-step rows. -/
def applyLoop (n : Nat) (orc : Nat → TxOracle) : Nat → List Int → List Migration → RunOut
  | _, st, [] => ⟨none, st, [], []⟩
  | i, st, g :: rest =>
    if n > 0 ∧ i ≥ n then ⟨none, st, [], []⟩
    else
      match applyStep st g (orc i) with
      | (.ok st', lg) =>
        let r := applyLoop n orc (i + 1) st' rest
        ⟨r.err, r.st, g :: r.executed, lg ++ r.logs⟩
      | (.error e, lg) => ⟨some e, st, [g], lg⟩

/-- The backward loop (lines 216-249). -/
def revertLoop (n : Nat) (orc : Nat → TxOracle) : Nat → List Int → List Migration → RunOut
  | _, st, [] => ⟨none, st, [], []⟩
  | i, st, g :: rest =>
    if n > 0 ∧ i ≥ n then ⟨none, st, [], []⟩
    else
      match revertStep st g (orc i) with
      | (.ok st', lg) =>
        let r := revertLoop n orc (i + 1) st' rest
        ⟨r.err, r.st, g :: r.executed, lg ++ r.logs⟩
      | (.error e, lg) => ⟨some e, st, [g], lg⟩

/-- The requested operation: apply or revert, with the count bound
(0 meaning unbounded, as in the source). -/
inductive Op where
  | up (n : Nat)
  | down (n : Nat)
deriving DecidableEq

/-- The session body (`fn`): select pending migrations by flag, sort them
(ascending for up, descending for down), run the loop. -/
def runBody (op : Op) (gs : List Migration) (orc : Nat → TxOracle) (st : List Int) : RunOut :=
  match op with
  | .up n => applyLoop n orc 0 st (sortByVersion (gs.filter (fun g => g.applied == false)))
  | .down n => revertLoop n orc 0 st (sortByVersionDesc (gs.filter (fun g => g.applied == true)))

/-- Everything a session returns: the error handed to the caller, the final
bookkeeping state, the migrator with its mutated catalog, the migrations
executed, the failure logs, and the observable events in order. -/
structure SessionOut where
  res : Option String
  db : DBState
  mg : Migrator
  executed : List Migration
  logs : List String
  evs : List Ev
deriving DecidableEq

/-- Events of the two deferred teardown calls, LIFO: the unlock defer was
registered last so it runs first, then the close defer. -/
def teardownEvs (so : SessionOracle) : List Ev :=
  [Ev.unlockAttempt so.unlockRes.isOk, Ev.closed]

/-- `withSession` (lines 82-159) combined with the requested body:
open, lock (both defers registered on success), ensure the table, reset
flags, read and mark persisted versions, sort the catalog, run the body.
Unlock and close failures are logged only — they never change `res`. -/
def runSession (m : Migrator) (so : SessionOracle) (orc : Nat → TxOracle)
    (db : DBState) (op : Op) : SessionOut :=
  match so.openRes with
  | .fail e => ⟨some e, db, m, [], [], []⟩
  | .ok =>
    match so.lockRes with
    | .fail e => ⟨some e, db, m, [], [], [Ev.connected, Ev.closed]⟩
    | .ok =>
      let evs := [Ev.connected, Ev.locked] ++ teardownEvs so
      match so.existsRes with
      | .fail e => ⟨some e, db, m, [], [], evs⟩
      | .ok =>
        let created : Except String DBState :=
          if db.hasTable then .ok db
          else
            match so.createRes with
            | .fail e => .error e
            | .ok => .ok ⟨true, []⟩
        match created with
        | .error e => ⟨some e, db, m, [], [], evs⟩
        | .ok db1 =>
          match so.queryRes with
          | .fail e => ⟨some e, db1, m, [], [], evs⟩
          | .ok =>
            match reconcileLoop (resetFlags m.gs) (sortIntAsc db1.versions) with
            | (some e, gsPart) => ⟨some e, db1, { m with gs := gsPart }, [], [], evs⟩
            | (none, gsMarked) =>
              let gs2 := sortByVersion gsMarked
              let r := runBody op gs2 orc db1.versions
              ⟨r.err, ⟨true, r.st⟩, { m with gs := gs2 }, r.executed, r.logs, evs⟩

/-- `UpOne`: apply at most one pending migration. -/
def Migrator.UpOne (m : Migrator) (so : SessionOracle) (orc : Nat → TxOracle)
    (db : DBState) : SessionOut := runSession m so orc db (.up 1)

/-- `UpAll`: apply all pending migrations. -/
def Migrator.UpAll (m : Migrator) (so : SessionOracle) (orc : Nat → TxOracle)
    (db : DBState) : SessionOut := runSession m so orc db (.up 0)

/-- `DownOne`: revert the most recently applied migration. -/
def Migrator.DownOne (m : Migrator) (so : SessionOracle) (orc : Nat → TxOracle)
    (db : DBState) : SessionOut := runSession m so orc db (.down 1)

/-- `DownAll`: revert all applied migrations. -/
def Migrator.DownAll (m : Migrator) (so : SessionOracle) (orc : Nat → TxOracle)
    (db : DBState) : SessionOut := runSession m so orc db (.down 0)

/-! ### Helpers for stating properties -/

/-- The bookkeeping rows after one transaction: the new rows if it
committed, the unchanged rows if it was rolled back. -/
def stepPost (st : List Int) : Except String (List Int) → List Int
  | .ok st' => st'
  | .error _ => st

/-- The first failing driver call's message inside one transaction, in
program order; `none` when the transaction commits. -/
def txErr (o : TxOracle) : Option String :=
  match o.beginRes with
  | .fail e => some e
  | .ok =>
    match o.scriptRes with
    | .fail e => some e
    | .ok =>
      match o.writeRes with
      | .fail e => some e
      | .ok =>
        match o.commitRes with
        | .fail e => some e
        | .ok => none

/-- The versions of a list of migrations. -/
def versionsOf (gs : List Migration) : List Int := gs.map Migration.Version

/-! ### Advisory-lock interleaving model

Two coordinators race on the same database.  Each session's locked region
(the code between obtaining and releasing `pg_advisory_lock(lockId)`)
is abstracted to the two steps the claim names: reconcile, then execute.
The abstract lock has Postgres advisory-lock semantics: acquisition blocks
(only a schedule in which the lock is free may contain the acquisition
step), release requires the holder. -/

inductive LAct where
  | lockA
  | reconcileA
  | execA
  | unlockA
deriving DecidableEq

/-- The in-region program of one session, in program order. -/
def sessionProg : List LAct := [.lockA, .reconcileA, .execA, .unlockA]

/-- Interleaving state: who holds the lock, and each session's remaining
program (session `true` and session `false`). -/
structure LockSt where
  holder : Option Bool
  rem1 : List LAct
  rem2 : List LAct
deriving DecidableEq

def remOf (st : LockSt) (s : Bool) : List LAct :=
  if s then st.rem1 else st.rem2

def setRem (st : LockSt) (s : Bool) (r : List LAct) : LockSt :=
  if s then { st with rem1 := r } else { st with rem2 := r }

/-- One scheduled step: session `x.1` performs action `x.2`.  The action
must be the session's next program action; lock acquisition additionally
requires the lock to be free, release requires being the holder.  `none`
means the step cannot be scheduled here. -/
def lstep (st : LockSt) (x : Bool × LAct) : Option LockSt :=
  match remOf st x.1 with
  | [] => none
  | a :: rest =>
    if a ≠ x.2 then none
    else
      match a with
      | .lockA =>
        if st.holder = none then some (setRem { st with holder := some x.1 } x.1 rest)
        else none
      | .unlockA =>
        if st.holder = some x.1 then some (setRem { st with holder := none } x.1 rest)
        else none
      | _ => some (setRem st x.1 rest)

/-- Run a schedule (a list of scheduled steps). -/
def lsteps (st : LockSt) : List (Bool × LAct) → Option LockSt
  | [] => some st
  | x :: tr =>
    match lstep st x with
    | some st' => lsteps st' tr
    | none => none

/-- Both sessions before their first action, lock free. -/
def lockInit : LockSt := ⟨none, sessionProg, sessionProg⟩

/-- A session is inside the locked region when it has consumed its lock
acquisition but not yet its release. -/
def inRegion (r : List LAct) : Bool :=
  match r with
  | [] => false
  | .lockA :: _ => false
  | _ => true

/-- A state with the lock holder and each session's progress (`drop` count
into its program). -/
def mkSt (h : Option Bool) (p1 p2 : Nat) : LockSt :=
  ⟨h, sessionProg.drop p1, sessionProg.drop p2⟩

/-- All states reachable from `lockInit`: whenever a session is inside the
region (progress 1..3) it is the holder, so the other session is not. -/
def reachSts : List LockSt :=
  [mkSt none 0 0, mkSt none 0 4, mkSt none 4 0, mkSt none 4 4,
   mkSt (some false) 0 1, mkSt (some false) 0 2, mkSt (some false) 0 3,
   mkSt (some false) 4 1, mkSt (some false) 4 2, mkSt (some false) 4 3,
   mkSt (some true) 1 0, mkSt (some true) 2 0, mkSt (some true) 3 0,
   mkSt (some true) 1 4, mkSt (some true) 2 4, mkSt (some true) 3 4]

/-- Every schedulable step. -/
def allActs : List (Bool × LAct) :=
  [(true, .lockA), (true, .reconcileA), (true, .execA), (true, .unlockA),
   (false, .lockA), (false, .reconcileA), (false, .execA), (false, .unlockA)]

/-- One step stays inside `reachSts` (or is unschedulable). -/
def stepIn (st : LockSt) (x : Bool × LAct) : Bool :=
  match lstep st x with
  | some st' => reachSts.contains st'
  | none => true

/-! ### Concrete fixtures -/

def mig1 : Migration :=
  { Version := 1, Name := "widgets_init", Up := "create table widgets;",
    Down := "drop table widgets;" }

def mig2 : Migration :=
  { Version := 2, Name := "users_init", Up := "create table users;",
    Down := "drop table users;" }

def mig3 : Migration :=
  { Version := 3, Name := "users_add_birthday", Up := "alter table users add birthday;",
    Down := "alter table users drop birthday;" }

/-- A second migration claiming version 1, for the duplicate-version claim. -/
def mig1dup : Migration :=
  { Version := 1, Name := "widgets_init_again", Up := "create table widgets2;",
    Down := "drop table widgets2;" }

def mFix : Migrator := (NewMigrator "postgres://localhost/app").Add [mig2, mig1, mig3]

/-- A per-transaction oracle that fails the script of the `k`-th transaction. -/
def orcFailAt (k : Nat) (e : String) : Nat → TxOracle :=
  fun i => if i = k then { txOk with scriptRes := .fail e } else txOk

/-- Mark every entry with version `v` applied (agrees with the first-match
`markVersion` when versions are unique). -/
def mark1 (v : Int) (gs : List Migration) : List Migration :=
  gs.map fun g => if g.Version = v then { g with applied := true } else g

/-- Mark every entry whose version is in `vs` applied, keep other flags. -/
def marksAcc (vs : List Int) (gs : List Migration) : List Migration :=
  gs.map fun g => if g.Version ∈ vs then { g with applied := true } else g

/-- The reconciliation result: applied exactly for persisted versions. -/
def reconMarked (vs : List Int) (gs : List Migration) : List Migration :=
  gs.map fun g =>
    if g.Version ∈ vs then { g with applied := true } else { g with applied := false }

instance : IsTotal Migration (fun a b => a.Version ≤ b.Version) :=
  ⟨fun a b => le_total a.Version b.Version⟩

instance : IsTrans Migration (fun a b => a.Version ≤ b.Version) :=
  ⟨fun _ _ _ hab hbc => le_trans hab hbc⟩

instance : IsTotal Migration (fun a b => b.Version ≤ a.Version) :=
  ⟨fun a b => le_total b.Version a.Version⟩

instance : IsTrans Migration (fun a b => b.Version ≤ a.Version) :=
  ⟨fun _ _ _ hab hbc => le_trans hbc hab⟩

/-! ### Theorems -/

/-! ### Step lemmas -/

theorem applyStep_allOk (st : List Int) (g : Migration) (o : TxOracle)
    (h : o.allOk = true) : applyStep st g o = (.ok (st ++ [g.Version]), []) := by
  obtain ⟨b, s, w, c⟩ := o
  cases b <;> cases s <;> cases w <;> cases c <;>
    simp_all [TxOracle.allOk, ExecRes.isOk, applyStep]

theorem revertStep_allOk (st : List Int) (g : Migration) (o : TxOracle)
    (h : o.allOk = true) :
    revertStep st g o = (.ok (st.filter (fun v => v != g.Version)), []) := by
  obtain ⟨b, s, w, c⟩ := o
  cases b <;> cases s <;> cases w <;> cases c <;>
    simp_all [TxOracle.allOk, ExecRes.isOk, revertStep]

theorem applyStep_fail (st : List Int) (g : Migration) (o : TxOracle)
    (h : o.allOk = false) :
    ∃ e, txErr o = some e ∧ (applyStep st g o).1 = .error e := by
  obtain ⟨b, s, w, c⟩ := o
  cases b <;> cases s <;> cases w <;> cases c <;>
    simp_all [TxOracle.allOk, ExecRes.isOk, applyStep, txErr]

theorem revertStep_fail (st : List Int) (g : Migration) (o : TxOracle)
    (h : o.allOk = false) :
    ∃ e, txErr o = some e ∧ (revertStep st g o).1 = .error e := by
  obtain ⟨b, s, w, c⟩ := o
  cases b <;> cases s <;> cases w <;> cases c <;>
    simp_all [TxOracle.allOk, ExecRes.isOk, revertStep, txErr]

/-- C1: per-migration transactional atomicity. -/
theorem c1_per_migration_atomicity (stu std : List Int) (g : Migration) (o : TxOracle)
    (hu : g.Version ∉ stu) (hd : g.Version ∈ std) :
    ((g.Version ∈ stepPost stu (applyStep stu g o).1) ↔ o.allOk = true) ∧
    (∀ st', (applyStep stu g o).1 = .ok st' → st' = stu ++ [g.Version]) ∧
    (∀ e, (applyStep stu g o).1 = .error e → txErr o = some e) ∧
    ((g.Version ∉ stepPost std (revertStep std g o).1) ↔ o.allOk = true) ∧
    (∀ st', (revertStep std g o).1 = .ok st' → st' = std.filter (fun v => v != g.Version)) ∧
    (∀ e, (revertStep std g o).1 = .error e → txErr o = some e) ∧
    (∀ e, txErr o = some e → ∀ (orc : Nat → TxOracle) (rest : List Migration) (n : Nat),
      orc 0 = o →
      (applyLoop n orc 0 stu (g :: rest)).err = some e ∧
      (applyLoop n orc 0 stu (g :: rest)).st = stu ∧
      (revertLoop n orc 0 std (g :: rest)).err = some e ∧
      (revertLoop n orc 0 std (g :: rest)).st = std) := by
  obtain ⟨b, s, w, c⟩ := o
  cases b <;> cases s <;> cases w <;> cases c <;>
    simp_all [TxOracle.allOk, ExecRes.isOk, applyStep, revertStep, stepPost, txErr,
      applyLoop, revertLoop, Nat.pos_iff_ne_zero]

theorem c1_per_migration_atomicity_witness :
    (1 : Int) ∈ stepPost [] (applyStep [] mig1 txOk).1 :=
  ((c1_per_migration_atomicity [] [1] mig1 txOk (by decide) (by decide)).1).mpr rfl



/-- C6 counterexample: two different connection urls whose CRC32 lock keys
coincide, so the two coordinators contend on the same advisory lock. -/
theorem c6_lock_key_counterexample :
    (NewMigrator "plumless").url ≠ (NewMigrator "buckeroo").url ∧
    lockId (NewMigrator "plumless") = lockId (NewMigrator "buckeroo") := by
  refine ⟨by decide, by decide⟩

/-- C6 amended: the lock key is a deterministic function of the url, so
coordinators with the same url share a key; coordinators with different
urls get different keys exactly when their urls' CRC32 values differ
(CRC32 is not injective, so two different urls may collide). -/
theorem c6_lock_key_deterministic (m1 m2 : Migrator) :
    (m1.url = m2.url → lockId m1 = lockId m2) ∧
    (crc32 m1.url ≠ crc32 m2.url → lockId m1 ≠ lockId m2) := by
  constructor
  · intro h; unfold lockId; rw [h]
  · intro h; exact h

theorem c6_lock_key_deterministic_witness :
    lockId (NewMigrator "postgres://a") = lockId (NewMigrator "postgres://a") ∧
    lockId (NewMigrator "postgres://a") ≠ lockId (NewMigrator "postgres://b") :=
  ⟨(c6_lock_key_deterministic (NewMigrator "postgres://a") (NewMigrator "postgres://a")).1 rfl,
   (c6_lock_key_deterministic (NewMigrator "postgres://a") (NewMigrator "postgres://b")).2
     (by decide)⟩

/-! ### Marking lemmas -/

theorem markVersion_append_of_no_match (v : Int) (pre l : List Migration)
    (hpre : ∀ h ∈ pre, h.Version ≠ v) :
    markVersion v (pre ++ l) = (markVersion v l).map (pre ++ ·) := by
  induction pre with
  | nil => simp [Option.map_id']
  | cons g rest ih =>
    have hg : g.Version ≠ v := hpre g (by simp)
    have ih' := ih (fun h hm => hpre h (by simp [hm]))
    simp only [List.cons_append, markVersion, if_neg hg, List.append_eq]
    rw [ih']
    cases markVersion v l <;> simp

/-- C10: `Add` appends unconditionally (no validation, duplicate versions
allowed); reconciliation of a persisted version marks only the first
matching catalog entry and reports no error, and a later duplicate stays
unapplied and is selected by the forward pending filter. -/
theorem c10_duplicate_versions (m : Migrator) (gsNew : List Migration)
    (v : Int) (pre mid post : List Migration) (g1 g2 : Migration)
    (hpre : ∀ h ∈ pre, h.Version ≠ v) (h1 : g1.Version = v) (h2 : g2.Version = v) :
    ((m.Add gsNew).gs = m.gs ++ gsNew) ∧
    (reconcileLoop (resetFlags (pre ++ g1 :: mid ++ g2 :: post)) [v] =
      (none,
        resetFlags pre ++ { g1 with applied := true } :: resetFlags mid ++
          { g2 with applied := false } :: resetFlags post)) ∧
    ({ g2 with applied := false } ∈
      (resetFlags pre ++ { g1 with applied := true } :: resetFlags mid ++
          { g2 with applied := false } :: resetFlags post).filter
        (fun g => g.applied == false)) ∧
    g2.Version = g1.Version := by
  refine ⟨rfl, ?_, ?_, h2.trans h1.symm⟩
  · have hpre' : ∀ h ∈ resetFlags pre, h.Version ≠ v := by
      intro h hm
      simp only [resetFlags, List.mem_map] at hm
      obtain ⟨h0, h0m, rfl⟩ := hm
      exact hpre h0 h0m
    have : resetFlags (pre ++ g1 :: mid ++ g2 :: post) =
        resetFlags pre ++ { g1 with applied := false } ::
          (resetFlags mid ++ { g2 with applied := false } :: resetFlags post) := by
      simp [resetFlags]
    rw [this]
    rw [reconcileLoop, markVersion_append_of_no_match v _ _ hpre']
    simp [markVersion, h1, reconcileLoop]
  · simp

theorem c10_duplicate_versions_witness :
    reconcileLoop (resetFlags [mig1, mig1dup]) [1] =
      (none, [{ mig1 with applied := true }, { mig1dup with applied := false }]) := by
  have h := (c10_duplicate_versions (NewMigrator "u") [] 1 [] [] []
    mig1 mig1dup (by simp) rfl rfl).2.1
  simpa [resetFlags] using h



/-! ### Lock model lemmas -/

theorem reach_closed :
    (reachSts.all fun st => allActs.all (stepIn st)) = true := by decide

theorem mem_allActs (x : Bool × LAct) : x ∈ allActs := by
  obtain ⟨s, a⟩ := x
  cases s <;> cases a <;> decide

theorem lstep_reach {st st' : LockSt} {x : Bool × LAct}
    (hst : st ∈ reachSts) (h : lstep st x = some st') : st' ∈ reachSts := by
  have h1 := List.all_eq_true.mp reach_closed st hst
  have h2 := List.all_eq_true.mp h1 x (mem_allActs x)
  unfold stepIn at h2
  rw [h] at h2
  simpa using h2

theorem lsteps_reach : ∀ (tr : List (Bool × LAct)) (st st' : LockSt),
    st ∈ reachSts → lsteps st tr = some st' → st' ∈ reachSts := by
  intro tr
  induction tr with
  | nil =>
    intro st st' h hs
    simp only [lsteps, Option.some.injEq] at hs
    exact hs ▸ h
  | cons x tr ih =>
    intro st st' h hs
    unfold lsteps at hs
    cases hx : lstep st x with
    | none => rw [hx] at hs; exact absurd hs (by simp)
    | some stm => rw [hx] at hs; exact ih stm st' (lstep_reach h hx) hs

theorem lockInit_reach : lockInit ∈ reachSts := by decide

/-! ### Executed-migrations lemmas (for the serialization consequence) -/

theorem applyLoop_cons (n : Nat) (orc : Nat → TxOracle) (i : Nat) (st : List Int)
    (g : Migration) (rest : List Migration) :
    applyLoop n orc i st (g :: rest) =
      if n > 0 ∧ i ≥ n then ⟨none, st, [], []⟩
      else
        match applyStep st g (orc i) with
        | (.ok st', lg) =>
          let r := applyLoop n orc (i + 1) st' rest
          ⟨r.err, r.st, g :: r.executed, lg ++ r.logs⟩
        | (.error e, lg) => ⟨some e, st, [g], lg⟩ := rfl

theorem revertLoop_cons (n : Nat) (orc : Nat → TxOracle) (i : Nat) (st : List Int)
    (g : Migration) (rest : List Migration) :
    revertLoop n orc i st (g :: rest) =
      if n > 0 ∧ i ≥ n then ⟨none, st, [], []⟩
      else
        match revertStep st g (orc i) with
        | (.ok st', lg) =>
          let r := revertLoop n orc (i + 1) st' rest
          ⟨r.err, r.st, g :: r.executed, lg ++ r.logs⟩
        | (.error e, lg) => ⟨some e, st, [g], lg⟩ := rfl

theorem applyStep_ok_eq {st st' : List Int} {g : Migration} {o : TxOracle} {lg : List String}
    (h : applyStep st g o = (.ok st', lg)) : st' = st ++ [g.Version] := by
  obtain ⟨b, s, w, c⟩ := o
  cases b <;> cases s <;> cases w <;> cases c <;> simp_all [applyStep]

theorem revertStep_ok_eq {st st' : List Int} {g : Migration} {o : TxOracle} {lg : List String}
    (h : revertStep st g o = (.ok st', lg)) :
    st' = st.filter (fun v => v != g.Version) := by
  obtain ⟨b, s, w, c⟩ := o
  cases b <;> cases s <;> cases w <;> cases c <;> simp_all [revertStep]

theorem applyLoop_executed_sub (n : Nat) (orc : Nat → TxOracle) :
    ∀ (i : Nat) (st : List Int) (gs : List Migration),
      ∀ g ∈ (applyLoop n orc i st gs).executed, g ∈ gs := by
  intro i st gs
  induction gs generalizing i st with
  | nil => simp [applyLoop]
  | cons g0 rest ih =>
    intro g hg
    rw [applyLoop_cons] at hg
    by_cases hb : n > 0 ∧ i ≥ n
    · rw [if_pos hb] at hg; simp at hg
    · rw [if_neg hb] at hg
      cases hs : applyStep st g0 (orc i) with
      | mk r lg =>
        cases r with
        | ok st' =>
          simp only [hs] at hg
          simp only [List.mem_cons] at hg ⊢
          rcases hg with rfl | hg2
          · exact Or.inl rfl
          · exact Or.inr (ih (i + 1) st' g hg2)
        | error e =>
          simp only [hs] at hg
          simp only [List.mem_singleton] at hg
          simp [hg]

theorem revertLoop_executed_sub (n : Nat) (orc : Nat → TxOracle) :
    ∀ (i : Nat) (st : List Int) (gs : List Migration),
      ∀ g ∈ (revertLoop n orc i st gs).executed, g ∈ gs := by
  intro i st gs
  induction gs generalizing i st with
  | nil => simp [revertLoop]
  | cons g0 rest ih =>
    intro g hg
    rw [revertLoop_cons] at hg
    by_cases hb : n > 0 ∧ i ≥ n
    · rw [if_pos hb] at hg; simp at hg
    · rw [if_neg hb] at hg
      cases hs : revertStep st g0 (orc i) with
      | mk r lg =>
        cases r with
        | ok st' =>
          simp only [hs] at hg
          simp only [List.mem_cons] at hg ⊢
          rcases hg with rfl | hg2
          · exact Or.inl rfl
          · exact Or.inr (ih (i + 1) st' g hg2)
        | error e =>
          simp only [hs] at hg
          simp only [List.mem_singleton] at hg
          simp [hg]

theorem applyLoop_err_none_st (n : Nat) (orc : Nat → TxOracle) :
    ∀ (i : Nat) (st : List Int) (gs : List Migration),
      (applyLoop n orc i st gs).err = none →
      (applyLoop n orc i st gs).st = st ++ versionsOf (applyLoop n orc i st gs).executed := by
  intro i st gs
  induction gs generalizing i st with
  | nil => simp [applyLoop, versionsOf]
  | cons g0 rest ih =>
    intro herr
    rw [applyLoop_cons] at herr ⊢
    by_cases hb : n > 0 ∧ i ≥ n
    · rw [if_pos hb]; simp [versionsOf]
    · rw [if_neg hb] at herr ⊢
      cases hs : applyStep st g0 (orc i) with
      | mk r lg =>
        cases r with
        | ok st' =>
          simp only [hs] at herr ⊢
          have h2 := ih (i + 1) st' herr
          rw [h2, applyStep_ok_eq hs]
          simp [versionsOf]
        | error e =>
          simp only [hs] at herr
          exact absurd herr (by simp)


theorem markVersion_eq_none (v : Int) :
    ∀ gs : List Migration, markVersion v gs = none ↔ v ∉ versionsOf gs := by
  intro gs
  induction gs with
  | nil => simp [markVersion, versionsOf]
  | cons g rest ih =>
    by_cases hg : g.Version = v
    · simp [markVersion, hg, versionsOf]
    · simp only [markVersion, if_neg hg, versionsOf, List.map_cons, List.mem_cons]
      cases h : markVersion v rest with
      | none =>
        simp only [Option.map_none', true_iff]
        have := (ih.mp h)
        simp only [versionsOf] at this
        push_neg
        exact ⟨fun he => hg he.symm, this⟩
      | some gs' =>
        simp only [Option.map_some']
        constructor
        · intro hc; exact absurd hc (by simp)
        · intro hc
          have : v ∈ versionsOf rest := by
            by_contra hv
            rw [← ih] at hv
            rw [h] at hv
            exact absurd hv (by simp)
          simp only [versionsOf] at this
          exact absurd (Or.inr this) hc

theorem markVersion_versionsOf (v : Int) :
    ∀ (gs gs' : List Migration), markVersion v gs = some gs' →
      versionsOf gs' = versionsOf gs := by
  intro gs
  induction gs with
  | nil => intro gs' h; simp [markVersion] at h
  | cons g rest ih =>
    intro gs' h
    by_cases hg : g.Version = v
    · simp only [markVersion, if_pos hg, Option.some.injEq] at h
      subst h
      simp [versionsOf]
    · simp only [markVersion, if_neg hg] at h
      cases h2 : markVersion v rest with
      | none => rw [h2] at h; simp at h
      | some rest' =>
        rw [h2] at h
        simp only [Option.map_some', Option.some.injEq] at h
        subst h
        have h3 := ih rest' h2
        simp only [versionsOf, List.map_cons] at h3 ⊢
        rw [h3]

theorem mark1_of_not_mem (v : Int) (gs : List Migration)
    (h : v ∉ versionsOf gs) : mark1 v gs = gs := by
  induction gs with
  | nil => simp [mark1]
  | cons g rest ih =>
    simp only [versionsOf, List.map_cons, List.mem_cons, not_or] at h
    have h1 : ¬g.Version = v := fun hc => h.1 hc.symm
    have h2 : mark1 v rest = rest := ih (by simpa [versionsOf] using h.2)
    simp only [mark1, List.map_cons, if_neg h1]
    simp only [mark1] at h2
    rw [h2]

theorem markVersion_eq_mark1 (v : Int) :
    ∀ gs : List Migration, v ∈ versionsOf gs → (versionsOf gs).Nodup →
      markVersion v gs = some (mark1 v gs) := by
  intro gs
  induction gs with
  | nil => simp [versionsOf]
  | cons g rest ih =>
    intro hv hnd
    simp only [versionsOf, List.map_cons, List.nodup_cons] at hnd
    by_cases hg : g.Version = v
    · simp only [markVersion, if_pos hg, mark1, List.map_cons, if_pos hg]
      have : mark1 v rest = rest := mark1_of_not_mem v rest (hg ▸ hnd.1)
      simp only [mark1] at this
      rw [this]
    · simp only [versionsOf, List.map_cons, List.mem_cons] at hv
      rcases hv with hv | hv
      · exact absurd hv.symm hg
      · simp only [markVersion, if_neg hg, mark1, List.map_cons, if_neg hg]
        have := ih (by simpa [versionsOf] using hv) (by simpa [versionsOf] using hnd.2)
        rw [this]
        simp [mark1]



theorem marksAcc_mark1 (v : Int) (vs : List Int) (gs : List Migration) :
    marksAcc vs (mark1 v gs) = marksAcc (v :: vs) gs := by
  simp only [marksAcc, mark1, List.map_map]
  apply List.map_congr_left
  intro g _
  by_cases hg : g.Version = v <;> simp [Function.comp, hg]

theorem versionsOf_mark1 (v : Int) (gs : List Migration) :
    versionsOf (mark1 v gs) = versionsOf gs := by
  simp only [versionsOf, mark1, List.map_map]
  apply List.map_congr_left
  intro g _
  by_cases hg : g.Version = v <;> simp [Function.comp, hg]

theorem versionsOf_resetFlags (gs : List Migration) :
    versionsOf (resetFlags gs) = versionsOf gs := by
  simp only [versionsOf, resetFlags, List.map_map]
  apply List.map_congr_left
  intro g _
  rfl

theorem reconcileLoop_ok (vs : List Int) : ∀ gs : List Migration,
    (versionsOf gs).Nodup → (∀ v ∈ vs, v ∈ versionsOf gs) →
    reconcileLoop gs vs = (none, marksAcc vs gs) := by
  induction vs with
  | nil =>
    intro gs _ _
    simp only [reconcileLoop, marksAcc]
    congr 1
    have : (fun g : Migration => if g.Version ∈ ([] : List Int) then
        { g with applied := true } else g) = id := by
      funext g; simp
    rw [this, List.map_id]
  | cons v vs ih =>
    intro gs hnd hin
    have hm := markVersion_eq_mark1 v gs (hin v (by simp)) hnd
    simp only [reconcileLoop, hm]
    rw [ih (mark1 v gs) (by rw [versionsOf_mark1]; exact hnd)
      (fun w hw => by rw [versionsOf_mark1]; exact hin w (List.mem_cons_of_mem _ hw))]
    rw [marksAcc_mark1]

theorem reconcileLoop_fst_none_iff (vs : List Int) : ∀ gs : List Migration,
    (reconcileLoop gs vs).1 = none ↔ ∀ v ∈ vs, v ∈ versionsOf gs := by
  induction vs with
  | nil => simp [reconcileLoop]
  | cons v vs ih =>
    intro gs
    cases hm : markVersion v gs with
    | none =>
      simp only [reconcileLoop, hm]
      constructor
      · intro h; exact absurd h (by simp)
      · intro h
        have h1 := (markVersion_eq_none v gs).mp hm
        exact absurd (h v (by simp)) h1
    | some gs' =>
      simp only [reconcileLoop, hm]
      rw [ih gs', markVersion_versionsOf v gs gs' hm]
      constructor
      · intro h w hw
        rcases List.mem_cons.mp hw with rfl | hw2
        · by_contra hv
          have := (markVersion_eq_none w gs).mpr hv
          rw [hm] at this
          exact absurd this (by simp)
        · exact h w hw2
      · intro h w hw
        exact h w (List.mem_cons_of_mem _ hw)

theorem marksAcc_resetFlags (vs : List Int) (gs : List Migration) :
    marksAcc vs (resetFlags gs) = reconMarked vs gs := by
  simp only [marksAcc, resetFlags, reconMarked, List.map_map]
  apply List.map_congr_left
  intro g _
  by_cases hg : g.Version ∈ vs <;> simp [Function.comp, hg]

theorem reconcileLoop_reset (vs : List Int) (gs : List Migration)
    (hnd : (versionsOf gs).Nodup) (hin : ∀ v ∈ vs, v ∈ versionsOf gs) :
    reconcileLoop (resetFlags gs) vs = (none, reconMarked vs gs) := by
  rw [reconcileLoop_ok vs (resetFlags gs)
    (by rw [versionsOf_resetFlags]; exact hnd)
    (fun w hw => by rw [versionsOf_resetFlags]; exact hin w hw)]
  rw [marksAcc_resetFlags]

theorem mem_sortIntAsc (v : Int) (l : List Int) : v ∈ sortIntAsc l ↔ v ∈ l :=
  (List.perm_insertionSort _ l).mem_iff



theorem applyLoop_allOk_char (orc : Nat → TxOracle) (horc : ∀ j, (orc j).allOk = true) :
    ∀ (gs : List Migration) (i : Nat) (st : List Int),
      applyLoop 0 orc i st gs = ⟨none, st ++ versionsOf gs, gs, []⟩ := by
  intro gs
  induction gs with
  | nil => intro i st; simp [applyLoop, versionsOf]
  | cons g rest ih =>
    intro i st
    rw [applyLoop_cons, if_neg (by omega), applyStep_allOk st g (orc i) (horc i)]
    simp only [ih (i + 1) (st ++ [g.Version])]
    simp [versionsOf]

theorem revertLoop_allOk_char (orc : Nat → TxOracle) (horc : ∀ j, (orc j).allOk = true) :
    ∀ (gs : List Migration) (i : Nat) (st : List Int),
      revertLoop 0 orc i st gs =
        ⟨none, gs.foldl (fun acc g => acc.filter (fun v => v != g.Version)) st, gs, []⟩ := by
  intro gs
  induction gs with
  | nil => intro i st; simp [revertLoop]
  | cons g rest ih =>
    intro i st
    rw [revertLoop_cons, if_neg (by omega), revertStep_allOk st g (orc i) (horc i)]
    simp only [ih (i + 1)]
    simp

theorem applyLoop_one_char (orc : Nat → TxOracle) (horc : ∀ j, (orc j).allOk = true)
    (st : List Int) (g : Migration) (rest : List Migration) :
    applyLoop 1 orc 0 st (g :: rest) = ⟨none, st ++ [g.Version], [g], []⟩ := by
  rw [applyLoop_cons, if_neg (by omega), applyStep_allOk st g (orc 0) (horc 0)]
  have hstop : ∀ st' : List Int, applyLoop 1 orc 1 st' rest = ⟨none, st', [], []⟩ := by
    intro st'
    cases rest with
    | nil => simp [applyLoop]
    | cons h t => rw [applyLoop_cons, if_pos (by omega)]
  simp [hstop]

theorem revertLoop_one_char (orc : Nat → TxOracle) (horc : ∀ j, (orc j).allOk = true)
    (st : List Int) (g : Migration) (rest : List Migration) :
    revertLoop 1 orc 0 st (g :: rest) =
      ⟨none, st.filter (fun v => v != g.Version), [g], []⟩ := by
  rw [revertLoop_cons, if_neg (by omega), revertStep_allOk st g (orc 0) (horc 0)]
  have hstop : ∀ st' : List Int, revertLoop 1 orc 1 st' rest = ⟨none, st', [], []⟩ := by
    intro st'
    cases rest with
    | nil => simp [revertLoop]
    | cons h t => rw [revertLoop_cons, if_pos (by omega)]
  simp [hstop]

theorem applyLoop_fail_char (n : Nat) (orc : Nat → TxOracle) :
    ∀ (k i : Nat) (st : List Int) (gs : List Migration),
      (∀ j, j < k → (orc (i + j)).allOk = true) → (orc (i + k)).allOk = false →
      k < gs.length → (n = 0 ∨ i + k < n) →
      (applyLoop n orc i st gs).err = txErr (orc (i + k)) ∧
      (applyLoop n orc i st gs).st = st ++ versionsOf (gs.take k) ∧
      (applyLoop n orc i st gs).executed = gs.take (k + 1) := by
  intro k
  induction k with
  | zero =>
    intro i st gs hok hfail hk hn
    cases gs with
    | nil => simp at hk
    | cons g rest =>
      have hb : ¬(n > 0 ∧ i ≥ n) := by omega
      rw [Nat.add_zero] at hfail
      obtain ⟨e, he, happ⟩ := applyStep_fail st g (orc i) hfail
      rcases hstep : applyStep st g (orc i) with ⟨r, lg⟩
      rw [hstep] at happ
      simp only at happ
      subst happ
      rw [applyLoop_cons, if_neg hb, hstep]
      simp [Nat.add_zero, he, versionsOf]
  | succ k' ih =>
    intro i st gs hok hfail hk hn
    cases gs with
    | nil => simp at hk
    | cons g rest =>
      have hb : ¬(n > 0 ∧ i ≥ n) := by omega
      have hg : (orc i).allOk = true := by
        have := hok 0 (by omega)
        simpa using this
      rw [applyLoop_cons, if_neg hb, applyStep_allOk st g (orc i) hg]
      have recur := ih (i + 1) (st ++ [g.Version]) rest
        (fun j hj => by
          have := hok (j + 1) (by omega)
          rw [show i + (j + 1) = i + 1 + j by omega] at this
          exact this)
        (by rw [show i + 1 + k' = i + (k' + 1) by omega]; exact hfail)
        (by simpa using hk)
        (by omega)
      rw [show i + 1 + k' = i + (k' + 1) by omega] at recur
      simp only [List.take_succ_cons]
      refine ⟨by simpa using recur.1, ?_, by simp [recur.2.2]⟩
      have h2 := recur.2.1
      simp only [h2, versionsOf, List.map_cons, List.take_succ_cons]
      simp

theorem revertLoop_fail_char (n : Nat) (orc : Nat → TxOracle) :
    ∀ (k i : Nat) (st : List Int) (gs : List Migration),
      (∀ j, j < k → (orc (i + j)).allOk = true) → (orc (i + k)).allOk = false →
      k < gs.length → (n = 0 ∨ i + k < n) →
      (revertLoop n orc i st gs).err = txErr (orc (i + k)) ∧
      (revertLoop n orc i st gs).st =
        (gs.take k).foldl (fun acc g => acc.filter (fun v => v != g.Version)) st ∧
      (revertLoop n orc i st gs).executed = gs.take (k + 1) := by
  intro k
  induction k with
  | zero =>
    intro i st gs hok hfail hk hn
    cases gs with
    | nil => simp at hk
    | cons g rest =>
      have hb : ¬(n > 0 ∧ i ≥ n) := by omega
      rw [Nat.add_zero] at hfail
      obtain ⟨e, he, happ⟩ := revertStep_fail st g (orc i) hfail
      rcases hstep : revertStep st g (orc i) with ⟨r, lg⟩
      rw [hstep] at happ
      simp only at happ
      subst happ
      rw [revertLoop_cons, if_neg hb, hstep]
      simp [Nat.add_zero, he]
  | succ k' ih =>
    intro i st gs hok hfail hk hn
    cases gs with
    | nil => simp at hk
    | cons g rest =>
      have hb : ¬(n > 0 ∧ i ≥ n) := by omega
      have hg : (orc i).allOk = true := by
        have := hok 0 (by omega)
        simpa using this
      rw [revertLoop_cons, if_neg hb, revertStep_allOk st g (orc i) hg]
      have recur := ih (i + 1) (st.filter (fun v => v != g.Version)) rest
        (fun j hj => by
          have := hok (j + 1) (by omega)
          rw [show i + (j + 1) = i + 1 + j by omega] at this
          exact this)
        (by rw [show i + 1 + k' = i + (k' + 1) by omega]; exact hfail)
        (by simpa using hk)
        (by omega)
      rw [show i + 1 + k' = i + (k' + 1) by omega] at recur
      simp only [List.take_succ_cons]
      refine ⟨by simpa using recur.1, ?_, by simp [recur.2.2]⟩
      simp [recur.2.1]



theorem txErr_of_fail (o : TxOracle) (h : o.allOk = false) : ∃ e, txErr o = some e := by
  obtain ⟨b, s, w, c⟩ := o
  cases b <;> cases s <;> cases w <;> cases c <;>
    simp_all [TxOracle.allOk, ExecRes.isOk, txErr]

/-- C2: fail-fast run semantics for both directions: the failing position's
error is returned at once, positions before it stay committed, the failing
one and everything after are not applied/reverted, nothing is retried. -/
theorem c2_fail_fast (n : Nat) (orc : Nat → TxOracle) (gs : List Migration)
    (stu std : List Int) (k : Nat)
    (hok : ∀ j, j < k → (orc j).allOk = true) (hfail : (orc k).allOk = false)
    (hk : k < gs.length) (hn : n = 0 ∨ k < n) :
    ∃ e, txErr (orc k) = some e ∧
      (applyLoop n orc 0 stu gs).err = some e ∧
      (applyLoop n orc 0 stu gs).st = stu ++ versionsOf (gs.take k) ∧
      (applyLoop n orc 0 stu gs).executed = gs.take (k + 1) ∧
      (revertLoop n orc 0 std gs).err = some e ∧
      (revertLoop n orc 0 std gs).st =
        (gs.take k).foldl (fun acc g => acc.filter (fun v => v != g.Version)) std ∧
      (revertLoop n orc 0 std gs).executed = gs.take (k + 1) := by
  obtain ⟨e, he⟩ := txErr_of_fail (orc k) hfail
  have ha := applyLoop_fail_char n orc k 0 stu gs
    (fun j hj => by simpa using hok j hj) (by simpa using hfail) hk (by omega)
  have hr := revertLoop_fail_char n orc k 0 std gs
    (fun j hj => by simpa using hok j hj) (by simpa using hfail) hk (by omega)
  simp only [Nat.zero_add] at ha hr
  exact ⟨e, he, by rw [ha.1, he], ha.2.1, ha.2.2, by rw [hr.1, he], hr.2.1, hr.2.2⟩

theorem c2_fail_fast_witness :
    (applyLoop 0 (orcFailAt 1 "boom") 0 [] [mig1, mig2, mig3]).err = some "boom" ∧
    (applyLoop 0 (orcFailAt 1 "boom") 0 [] [mig1, mig2, mig3]).st = [1] ∧
    (applyLoop 0 (orcFailAt 1 "boom") 0 [] [mig1, mig2, mig3]).executed = [mig1, mig2] := by
  obtain ⟨e, he, h1, h2, h3, _, _, _⟩ :=
    c2_fail_fast 0 (orcFailAt 1 "boom") [mig1, mig2, mig3] [] [1, 2, 3] 1
      (by intro j hj; interval_cases j; decide) (by decide) (by decide) (Or.inl rfl)
  have he0 : txErr (orcFailAt 1 "boom" 1) = some "boom" := by decide
  rw [he0] at he
  have : e = "boom" := (Option.some.inj he).symm
  subst this
  refine ⟨h1, ?_, h3⟩
  rw [h2]
  decide

/-! ### Session path lemmas -/

theorem runSession_ok_path (m : Migrator) (so : SessionOracle) (orc : Nat → TxOracle)
    (db : DBState) (op : Op) (gsM : List Migration)
    (h1 : so.openRes = .ok) (h2 : so.lockRes = .ok) (h3 : so.existsRes = .ok)
    (h5 : so.queryRes = .ok) (ht : db.hasTable = true)
    (hrec : reconcileLoop (resetFlags m.gs) (sortIntAsc db.versions) = (none, gsM)) :
    runSession m so orc db op =
      ⟨(runBody op (sortByVersion gsM) orc db.versions).err,
       ⟨true, (runBody op (sortByVersion gsM) orc db.versions).st⟩,
       { m with gs := sortByVersion gsM },
       (runBody op (sortByVersion gsM) orc db.versions).executed,
       (runBody op (sortByVersion gsM) orc db.versions).logs,
       [Ev.connected, Ev.locked] ++ teardownEvs so⟩ := by
  simp only [runSession, h1, h2, h3, h5, ht, hrec, if_true]

theorem runSession_reconcile_err (m : Migrator) (so : SessionOracle) (orc : Nat → TxOracle)
    (db : DBState) (op : Op) (e : String) (gsPart : List Migration)
    (h1 : so.openRes = .ok) (h2 : so.lockRes = .ok) (h3 : so.existsRes = .ok)
    (h5 : so.queryRes = .ok) (ht : db.hasTable = true)
    (hrec : reconcileLoop (resetFlags m.gs) (sortIntAsc db.versions) = (some e, gsPart)) :
    runSession m so orc db op =
      ⟨some e, db, { m with gs := gsPart }, [], [],
       [Ev.connected, Ev.locked] ++ teardownEvs so⟩ := by
  simp only [runSession, h1, h2, h3, h5, ht, hrec, if_true]

/-- C4: the reconciliation contract: flags are reset and then set true
exactly for persisted versions; a persisted version with no catalog entry
fails the session before any script execution, leaving the bookkeeping
state untouched. -/
theorem c4_reconciliation (m : Migrator) (so : SessionOracle) (orc : Nat → TxOracle)
    (db : DBState) (op : Op) (v : Int)
    (hnd : (versionsOf m.gs).Nodup)
    (h1 : so.openRes = .ok) (h2 : so.lockRes = .ok) (h3 : so.existsRes = .ok)
    (h5 : so.queryRes = .ok) (ht : db.hasTable = true) :
    ((∀ w ∈ db.versions, w ∈ versionsOf m.gs) →
      reconcileLoop (resetFlags m.gs) (sortIntAsc db.versions) =
        (none, m.gs.map fun g =>
          if g.Version ∈ db.versions then { g with applied := true }
          else { g with applied := false })) ∧
    (v ∈ db.versions → v ∉ versionsOf m.gs →
      ∃ e gsPart,
        runSession m so orc db op =
          ⟨some e, db, { m with gs := gsPart }, [], [],
           [Ev.connected, Ev.locked] ++ teardownEvs so⟩) := by
  constructor
  · intro hin
    rw [reconcileLoop_reset (sortIntAsc db.versions) m.gs hnd
      (fun w hw => hin w ((mem_sortIntAsc w db.versions).mp hw))]
    unfold reconMarked
    congr 1
    apply List.map_congr_left
    intro g _
    by_cases hg : g.Version ∈ db.versions
    · rw [if_pos ((mem_sortIntAsc _ _).mpr hg), if_pos hg]
    · rw [if_neg (fun hc => hg ((mem_sortIntAsc _ _).mp hc)), if_neg hg]
  · intro hv hnin
    have hbad : ¬(reconcileLoop (resetFlags m.gs) (sortIntAsc db.versions)).1 = none := by
      rw [reconcileLoop_fst_none_iff]
      intro hall
      exact hnin (by
        have := hall v ((mem_sortIntAsc v db.versions).mpr hv)
        rwa [versionsOf_resetFlags] at this)
    rcases hre : reconcileLoop (resetFlags m.gs) (sortIntAsc db.versions) with ⟨eo, gsPart⟩
    cases eo with
    | none => rw [hre] at hbad; simp at hbad
    | some e =>
      exact ⟨e, gsPart, runSession_reconcile_err m so orc db op e gsPart h1 h2 h3 h5 ht hre⟩

theorem c4_reconciliation_witness :
    reconcileLoop (resetFlags mFix.gs) (sortIntAsc [2]) =
      (none, mFix.gs.map fun g =>
        if g.Version ∈ [(2 : Int)] then { g with applied := true }
        else { g with applied := false }) ∧
    ∃ e gsPart,
      runSession mFix soOk orcOk ⟨true, [7]⟩ (.up 0) =
        ⟨some e, ⟨true, [7]⟩, { mFix with gs := gsPart }, [], [],
         [Ev.connected, Ev.locked] ++ teardownEvs soOk⟩ := by
  constructor
  · exact (c4_reconciliation mFix soOk orcOk ⟨true, [2]⟩ (.up 0) 7
      (by decide) rfl rfl rfl rfl rfl).1 (by decide)
  · exact (c4_reconciliation mFix soOk orcOk ⟨true, [7]⟩ (.up 0) 7
      (by decide) rfl rfl rfl rfl rfl).2 (by decide) (by decide)



theorem versionsOf_filter_reconMarked_false (vs : List Int) (gs : List Migration) :
    versionsOf ((reconMarked vs gs).filter (fun g => g.applied == false)) =
      versionsOf (gs.filter fun g => decide (g.Version ∉ vs)) := by
  unfold reconMarked versionsOf
  rw [List.filter_map, List.map_map]
  rw [List.filter_congr (q := fun g : Migration => decide (g.Version ∉ vs))
    (by intro g _; by_cases hg : g.Version ∈ vs <;> simp [Function.comp, hg])]
  apply List.map_congr_left
  intro g _
  by_cases hg : g.Version ∈ vs <;> simp [Function.comp, hg]

theorem versionsOf_filter_reconMarked_true (vs : List Int) (gs : List Migration) :
    versionsOf ((reconMarked vs gs).filter (fun g => g.applied == true)) =
      versionsOf (gs.filter fun g => decide (g.Version ∈ vs)) := by
  unfold reconMarked versionsOf
  rw [List.filter_map, List.map_map]
  rw [List.filter_congr (q := fun g : Migration => decide (g.Version ∈ vs))
    (by intro g _; by_cases hg : g.Version ∈ vs <;> simp [Function.comp, hg])]
  apply List.map_congr_left
  intro g _
  by_cases hg : g.Version ∈ vs <;> simp [Function.comp, hg]

theorem sortByVersion_perm (gs : List Migration) : (sortByVersion gs).Perm gs :=
  List.perm_insertionSort _ gs

theorem sortByVersionDesc_perm (gs : List Migration) : (sortByVersionDesc gs).Perm gs :=
  List.perm_insertionSort _ gs

theorem sorted_sortByVersion (gs : List Migration) :
    (sortByVersion gs).Pairwise fun a b => a.Version ≤ b.Version :=
  List.sorted_insertionSort _ gs

theorem sorted_sortByVersionDesc (gs : List Migration) :
    (sortByVersionDesc gs).Pairwise fun a b => b.Version ≤ a.Version :=
  List.sorted_insertionSort _ gs

theorem versionsOf_perm_of_perm {gs gs' : List Migration} (h : gs.Perm gs') :
    (versionsOf gs).Perm (versionsOf gs') := h.map Migration.Version

theorem versionsOf_filter_sublist (p : Migration → Bool) (gs : List Migration) :
    (versionsOf (gs.filter p)).Sublist (versionsOf gs) :=
  (List.filter_sublist gs).map Migration.Version



theorem applyLoop_one_take (orc : Nat → TxOracle) (horc : ∀ j, (orc j).allOk = true)
    (st : List Int) (gs : List Migration) :
    (applyLoop 1 orc 0 st gs).executed = gs.take 1 := by
  cases gs with
  | nil => simp [applyLoop]
  | cons g rest => rw [applyLoop_one_char orc horc]; simp

theorem revertLoop_one_take (orc : Nat → TxOracle) (horc : ∀ j, (orc j).allOk = true)
    (st : List Int) (gs : List Migration) :
    (revertLoop 1 orc 0 st gs).executed = gs.take 1 := by
  cases gs with
  | nil => simp [revertLoop]
  | cons g rest => rw [revertLoop_one_char orc horc]; simp

theorem take_one_min (p : List Migration)
    (hs : p.Pairwise fun a b => a.Version ≤ b.Version) :
    ∀ g ∈ p.take 1, ∀ w ∈ versionsOf p, g.Version ≤ w := by
  cases p with
  | nil => simp
  | cons g0 rest =>
    intro g hg w hw
    simp only [List.take_succ_cons, List.take_zero, List.mem_singleton] at hg
    subst hg
    simp only [versionsOf, List.map_cons, List.mem_cons] at hw
    rcases hw with rfl | hw
    · exact le_refl _
    · obtain ⟨h0, _⟩ := List.pairwise_cons.mp hs
      obtain ⟨g', hg', rfl⟩ := List.mem_map.mp hw
      exact h0 g' hg'

theorem take_one_max (p : List Migration)
    (hs : p.Pairwise fun a b => b.Version ≤ a.Version) :
    ∀ g ∈ p.take 1, ∀ w ∈ versionsOf p, w ≤ g.Version := by
  cases p with
  | nil => simp
  | cons g0 rest =>
    intro g hg w hw
    simp only [List.take_succ_cons, List.take_zero, List.mem_singleton] at hg
    subst hg
    simp only [versionsOf, List.map_cons, List.mem_cons] at hw
    rcases hw with rfl | hw
    · exact le_refl _
    · obtain ⟨h0, _⟩ := List.pairwise_cons.mp hs
      obtain ⟨g', hg', rfl⟩ := List.mem_map.mp hw
      exact h0 g' hg'

theorem filter_mem_sortIntAsc_congr (vs : List Int) (gs : List Migration) :
    (gs.filter fun g => decide (g.Version ∉ sortIntAsc vs)) =
      gs.filter fun g => decide (g.Version ∉ vs) := by
  apply List.filter_congr
  intro g _
  exact decide_eq_decide.mpr (by rw [mem_sortIntAsc])

theorem filter_mem_sortIntAsc_congr_pos (vs : List Int) (gs : List Migration) :
    (gs.filter fun g => decide (g.Version ∈ sortIntAsc vs)) =
      gs.filter fun g => decide (g.Version ∈ vs) := by
  apply List.filter_congr
  intro g _
  exact decide_eq_decide.mpr (by rw [mem_sortIntAsc])



/-- C3: pending selection and execution order: UpAll executes exactly the
unapplied migrations in strictly ascending version order, UpOne the lowest
pending one; DownAll executes exactly the applied migrations in strictly
descending version order, DownOne the highest applied one. -/
theorem c3_execution_order (m : Migrator) (so : SessionOracle) (orc : Nat → TxOracle)
    (db : DBState)
    (hnd : (versionsOf m.gs).Nodup)
    (hknown : ∀ w ∈ db.versions, w ∈ versionsOf m.gs)
    (h1 : so.openRes = .ok) (h2 : so.lockRes = .ok) (h3 : so.existsRes = .ok)
    (h5 : so.queryRes = .ok) (ht : db.hasTable = true)
    (horc : ∀ j, (orc j).allOk = true) :
    (versionsOf (m.UpAll so orc db).executed).Perm
      (versionsOf (m.gs.filter fun g => decide (g.Version ∉ db.versions))) ∧
    (versionsOf (m.UpAll so orc db).executed).Pairwise (· < ·) ∧
    (∀ g ∈ (m.UpOne so orc db).executed,
      ∀ w ∈ versionsOf (m.gs.filter fun g' => decide (g'.Version ∉ db.versions)),
        g.Version ≤ w) ∧
    ((m.UpOne so orc db).executed.length =
      min 1 (m.gs.filter fun g => decide (g.Version ∉ db.versions)).length) ∧
    (versionsOf (m.DownAll so orc db).executed).Perm
      (versionsOf (m.gs.filter fun g => decide (g.Version ∈ db.versions))) ∧
    (versionsOf (m.DownAll so orc db).executed).Pairwise (· > ·) ∧
    (∀ g ∈ (m.DownOne so orc db).executed,
      ∀ w ∈ versionsOf (m.gs.filter fun g' => decide (g'.Version ∈ db.versions)),
        w ≤ g.Version) ∧
    ((m.DownOne so orc db).executed.length =
      min 1 (m.gs.filter fun g => decide (g.Version ∈ db.versions)).length) := by
  have hrec := reconcileLoop_reset (sortIntAsc db.versions) m.gs hnd
    (fun w hw => hknown w ((mem_sortIntAsc _ _).mp hw))
  -- abbreviations (plain terms, no tactic-level state)
  let gsM := reconMarked (sortIntAsc db.versions) m.gs
  let pUp := sortByVersion ((sortByVersion gsM).filter fun g => g.applied == false)
  let pDn := sortByVersionDesc ((sortByVersion gsM).filter fun g => g.applied == true)
  -- executed lists of the four operations
  have hu0 : (m.UpAll so orc db).executed = pUp := by
    show (runSession m so orc db (.up 0)).executed = pUp
    rw [runSession_ok_path m so orc db (.up 0) gsM h1 h2 h3 h5 ht hrec]
    show (runBody (.up 0) (sortByVersion gsM) orc db.versions).executed = pUp
    simp only [runBody]
    rw [applyLoop_allOk_char orc horc]
  have hu1 : (m.UpOne so orc db).executed = pUp.take 1 := by
    show (runSession m so orc db (.up 1)).executed = pUp.take 1
    rw [runSession_ok_path m so orc db (.up 1) gsM h1 h2 h3 h5 ht hrec]
    show (runBody (.up 1) (sortByVersion gsM) orc db.versions).executed = pUp.take 1
    simp only [runBody]
    rw [applyLoop_one_take orc horc]
  have hd0 : (m.DownAll so orc db).executed = pDn := by
    show (runSession m so orc db (.down 0)).executed = pDn
    rw [runSession_ok_path m so orc db (.down 0) gsM h1 h2 h3 h5 ht hrec]
    show (runBody (.down 0) (sortByVersion gsM) orc db.versions).executed = pDn
    simp only [runBody]
    rw [revertLoop_allOk_char orc horc]
  have hd1 : (m.DownOne so orc db).executed = pDn.take 1 := by
    show (runSession m so orc db (.down 1)).executed = pDn.take 1
    rw [runSession_ok_path m so orc db (.down 1) gsM h1 h2 h3 h5 ht hrec]
    show (runBody (.down 1) (sortByVersion gsM) orc db.versions).executed = pDn.take 1
    simp only [runBody]
    rw [revertLoop_one_take orc horc]
  -- the permutation chains
  have hperm_up : (versionsOf pUp).Perm
      (versionsOf (m.gs.filter fun g => decide (g.Version ∉ db.versions))) := by
    have p1 : (versionsOf pUp).Perm
        (versionsOf (gsM.filter fun g => g.applied == false)) :=
      (versionsOf_perm_of_perm (sortByVersion_perm _)).trans
        (versionsOf_perm_of_perm ((sortByVersion_perm gsM).filter _))
    have p2 := versionsOf_filter_reconMarked_false (sortIntAsc db.versions) m.gs
    have p3 := filter_mem_sortIntAsc_congr db.versions m.gs
    rw [p2, p3] at p1
    exact p1
  have hperm_dn : (versionsOf pDn).Perm
      (versionsOf (m.gs.filter fun g => decide (g.Version ∈ db.versions))) := by
    have p1 : (versionsOf pDn).Perm
        (versionsOf (gsM.filter fun g => g.applied == true)) :=
      (versionsOf_perm_of_perm (sortByVersionDesc_perm _)).trans
        (versionsOf_perm_of_perm ((sortByVersion_perm gsM).filter _))
    have p2 := versionsOf_filter_reconMarked_true (sortIntAsc db.versions) m.gs
    have p3 := filter_mem_sortIntAsc_congr_pos db.versions m.gs
    rw [p2, p3] at p1
    exact p1
  -- nodup of the executed versions
  have hnd_up : (versionsOf pUp).Nodup := by
    apply (List.Perm.nodup_iff hperm_up).mpr
    exact (versionsOf_filter_sublist _ m.gs).nodup hnd
  have hnd_dn : (versionsOf pDn).Nodup := by
    apply (List.Perm.nodup_iff hperm_dn).mpr
    exact (versionsOf_filter_sublist _ m.gs).nodup hnd
  -- sortedness of the executed versions
  have hsort_up : (versionsOf pUp).Pairwise (· ≤ ·) :=
    List.pairwise_map.mpr (sorted_sortByVersion _)
  have hsort_dn : (versionsOf pDn).Pairwise (fun a b => b ≤ a) :=
    List.pairwise_map.mpr (sorted_sortByVersionDesc _)
  refine ⟨?_, ?_, ?_, ?_, ?_, ?_, ?_, ?_⟩
  · rw [hu0]; exact hperm_up
  · rw [hu0]
    exact (hsort_up.and hnd_up).imp fun h => lt_of_le_of_ne h.1 h.2
  · rw [hu1]
    intro g hg w hw
    exact take_one_min pUp (sorted_sortByVersion _) g hg w (hperm_up.mem_iff.mpr hw)
  · rw [hu1]
    have hlen : pUp.length =
        (m.gs.filter fun g => decide (g.Version ∉ db.versions)).length := by
      have := hperm_up.length_eq
      simpa [versionsOf] using this
    simp [List.length_take, hlen]
  · rw [hd0]; exact hperm_dn
  · rw [hd0]
    exact (hsort_dn.and hnd_dn).imp fun h => lt_of_le_of_ne h.1 (fun hc => h.2 hc.symm)
  · rw [hd1]
    intro g hg w hw
    exact take_one_max pDn (sorted_sortByVersionDesc _) g hg w (hperm_dn.mem_iff.mpr hw)
  · rw [hd1]
    have hlen : pDn.length =
        (m.gs.filter fun g => decide (g.Version ∈ db.versions)).length := by
      have := hperm_dn.length_eq
      simpa [versionsOf] using this
    simp [List.length_take, hlen]

theorem c3_execution_order_witness :
    (versionsOf ((mFix.UpAll soOk orcOk ⟨true, [2]⟩).executed)).Perm [1, 3] ∧
    (∀ g ∈ (mFix.DownOne soOk orcOk ⟨true, [1, 2]⟩).executed, g.Version = 2) := by
  constructor
  · have h := (c3_execution_order mFix soOk orcOk ⟨true, [2]⟩ (by decide)
      (by decide) rfl rfl rfl rfl rfl (fun _ => rfl)).1
    have : versionsOf (mFix.gs.filter fun g =>
        decide (g.Version ∉ (⟨true, [2]⟩ : DBState).versions)) = [2, 1, 3].filter
          (fun v => decide (v ∉ [(2 : Int)])) := by decide
    refine h.trans ?_
    rw [this]
    decide
  · intro g hg
    have h := (c3_execution_order mFix soOk orcOk ⟨true, [1, 2]⟩ (by decide)
      (by decide) rfl rfl rfl rfl rfl (fun _ => rfl)).2.2.2.2.2.2.1
    have h2 := h g hg 2 (by decide)
    have h3 : ∀ g' ∈ (mFix.DownOne soOk orcOk ⟨true, [1, 2]⟩).executed,
        g'.Version ∈ versionsOf (mFix.gs.filter fun g'' =>
          decide (g''.Version ∈ (⟨true, [1, 2]⟩ : DBState).versions)) := by decide
    have h4 := h3 g hg
    have h5 : versionsOf (mFix.gs.filter fun g'' =>
        decide (g''.Version ∈ (⟨true, [1, 2]⟩ : DBState).versions)) = [2, 1] := by decide
    rw [h5] at h4
    rcases List.mem_cons.mp h4 with he | he
    · exact he
    · simp only [List.mem_singleton] at he
      omega



theorem versionsOf_reconMarked (vs : List Int) (gs : List Migration) :
    versionsOf (reconMarked vs gs) = versionsOf gs := by
  simp only [versionsOf, reconMarked, List.map_map]
  apply List.map_congr_left
  intro g _
  by_cases hg : g.Version ∈ vs <;> simp [Function.comp, hg]

theorem applyLoop_zero_err_none_executed (orc : Nat → TxOracle) :
    ∀ (gs : List Migration) (i : Nat) (st : List Int),
      (applyLoop 0 orc i st gs).err = none → (applyLoop 0 orc i st gs).executed = gs := by
  intro gs
  induction gs with
  | nil => simp [applyLoop]
  | cons g rest ih =>
    intro i st herr
    rw [applyLoop_cons, if_neg (by omega)] at herr ⊢
    cases hs : applyStep st g (orc i) with
    | mk r lg =>
      cases r with
      | ok st' =>
        simp only [hs] at herr ⊢
        simp [ih (i + 1) st' herr]
      | error e =>
        simp only [hs] at herr
        exact absurd herr (by simp)

theorem filter_unapplied_nil (gs2 : List Migration) (hall : ∀ g ∈ gs2, g.applied = true) :
    gs2.filter (fun g => g.applied == false) = [] := by
  rw [List.filter_eq_nil_iff]
  intro g hg
  simp [hall g hg]

theorem reconMarked_applied_of_mem (vs : List Int) (gs : List Migration)
    (hall : ∀ g ∈ gs, g.Version ∈ vs) :
    ∀ g ∈ reconMarked vs gs, g.applied = true := by
  intro g hg
  simp only [reconMarked, List.mem_map] at hg
  obtain ⟨g0, hg0, rfl⟩ := hg
  rw [if_pos (hall g0 hg0)]

theorem runSession_noPending_db (m2 : Migrator) (db2 : DBState)
    (hnd2 : (versionsOf m2.gs).Nodup) (ht2 : db2.hasTable = true)
    (hknown2 : ∀ w ∈ db2.versions, w ∈ versionsOf m2.gs)
    (hall2 : ∀ g ∈ m2.gs, g.Version ∈ db2.versions) :
    ∀ (so2 : SessionOracle) (orc2 : Nat → TxOracle) (n : Nat),
      (runSession m2 so2 orc2 db2 (.up n)).db = db2 := by
  intro so2 orc2 n
  obtain ⟨tb, vers⟩ := db2
  simp only at ht2
  subst ht2
  obtain ⟨o1, o2, o3, o4, o5, o6, o7⟩ := so2
  cases o1 with
  | fail e => rfl
  | ok =>
  cases o2 with
  | fail e => rfl
  | ok =>
  cases o3 with
  | fail e => rfl
  | ok =>
  cases o5 with
  | fail e => simp [runSession]
  | ok =>
    have hrec := reconcileLoop_reset (sortIntAsc vers) m2.gs hnd2
      (fun w hw => hknown2 w ((mem_sortIntAsc _ _).mp hw))
    have hpend : ((sortByVersion (reconMarked (sortIntAsc vers) m2.gs)).filter
        (fun g => g.applied == false)) = [] := by
      apply filter_unapplied_nil
      intro g hg
      exact reconMarked_applied_of_mem (sortIntAsc vers) m2.gs
        (fun g' hg' => (mem_sortIntAsc _ _).mpr (hall2 g' hg')) g
        ((sortByVersion_perm _).mem_iff.mp hg)
    rw [runSession_ok_path ⟨m2.url, m2.gs⟩ ⟨.ok, .ok, .ok, o4, .ok, o6, o7⟩ orc2
      ⟨true, vers⟩ (.up n) (reconMarked (sortIntAsc vers) m2.gs) rfl rfl rfl rfl rfl hrec]
    simp only [runBody, hpend]
    show (⟨true, (applyLoop n orc2 0 vers (sortByVersion [])).st⟩ : DBState) = ⟨true, vers⟩
    simp [sortByVersion, List.insertionSort, applyLoop]



theorem reconMarked_mem_applied_iff (vs : List Int) (gs : List Migration) (g : Migration)
    (hg : g ∈ reconMarked vs gs) : g.applied = true ↔ g.Version ∈ vs := by
  simp only [reconMarked, List.mem_map] at hg
  obtain ⟨g0, hg0, rfl⟩ := hg
  by_cases hv : g0.Version ∈ vs <;> simp [hv]

theorem upAll_success_closure (m : Migrator) (so : SessionOracle) (orc : Nat → TxOracle)
    (db : DBState)
    (hnd : (versionsOf m.gs).Nodup)
    (hknown : ∀ w ∈ db.versions, w ∈ versionsOf m.gs)
    (h1 : so.openRes = .ok) (h2 : so.lockRes = .ok) (h3 : so.existsRes = .ok)
    (h5 : so.queryRes = .ok) (ht : db.hasTable = true)
    (hres : (m.UpAll so orc db).res = none) :
    (versionsOf (m.UpAll so orc db).mg.gs).Nodup ∧
    (m.UpAll so orc db).db.hasTable = true ∧
    (∀ w ∈ (m.UpAll so orc db).db.versions, w ∈ versionsOf (m.UpAll so orc db).mg.gs) ∧
    (∀ g ∈ (m.UpAll so orc db).mg.gs, g.Version ∈ (m.UpAll so orc db).db.versions) := by
  have hrec := reconcileLoop_reset (sortIntAsc db.versions) m.gs hnd
    (fun w hw => hknown w ((mem_sortIntAsc _ _).mp hw))
  have hs1 := runSession_ok_path m so orc db (.up 0)
    (reconMarked (sortIntAsc db.versions) m.gs) h1 h2 h3 h5 ht hrec
  have hres' : (runBody (.up 0)
      (sortByVersion (reconMarked (sortIntAsc db.versions) m.gs)) orc db.versions).err =
      none := by
    have := hres
    unfold Migrator.UpAll at this
    rw [hs1] at this
    exact this
  -- abbreviations
  have hvperm : (versionsOf (sortByVersion (reconMarked (sortIntAsc db.versions) m.gs))).Perm
      (versionsOf m.gs) := by
    have p1 := versionsOf_perm_of_perm
      (sortByVersion_perm (reconMarked (sortIntAsc db.versions) m.gs))
    rw [versionsOf_reconMarked] at p1
    exact p1
  have hloop : runBody (.up 0)
      (sortByVersion (reconMarked (sortIntAsc db.versions) m.gs)) orc db.versions =
      applyLoop 0 orc 0 db.versions
        (sortByVersion ((sortByVersion (reconMarked (sortIntAsc db.versions) m.gs)).filter
          (fun g => g.applied == false))) := rfl
  rw [hloop] at hres'
  have hexec := applyLoop_zero_err_none_executed orc _ 0 db.versions hres'
  have hst := applyLoop_err_none_st 0 orc 0 db.versions _ hres'
  rw [hexec] at hst
  unfold Migrator.UpAll
  rw [hs1]
  simp only [runBody, hloop]
  refine ⟨?_, by trivial, ?_, ?_⟩
  · exact (List.Perm.nodup_iff hvperm).mpr hnd
  · -- every row in the final bookkeeping state has a catalog entry
    intro w hw
    rw [hst] at hw
    rcases List.mem_append.mp hw with hw | hw
    · exact hvperm.mem_iff.mpr (hknown w hw)
    · -- w is the version of some pending migration, which is in the catalog
      have hp := versionsOf_perm_of_perm (sortByVersion_perm
        ((sortByVersion (reconMarked (sortIntAsc db.versions) m.gs)).filter
          (fun g => g.applied == false)))
      have hw2 := hp.mem_iff.mp hw
      have hsub := versionsOf_filter_sublist (fun g => g.applied == false)
        (sortByVersion (reconMarked (sortIntAsc db.versions) m.gs))
      exact hsub.mem hw2
  · -- every catalog entry's version is now in the bookkeeping state
    intro g hg
    rw [hst]
    by_cases ha : g.applied = true
    · have hgM := (sortByVersion_perm (reconMarked (sortIntAsc db.versions) m.gs)).mem_iff.mp hg
      have := (reconMarked_mem_applied_iff (sortIntAsc db.versions) m.gs g hgM).mp ha
      exact List.mem_append.mpr (Or.inl ((mem_sortIntAsc _ _).mp this))
    · have hfil : g ∈ (sortByVersion (reconMarked (sortIntAsc db.versions) m.gs)).filter
          (fun g => g.applied == false) := by
        rw [List.mem_filter]
        exact ⟨hg, by simp [Bool.not_eq_true] at ha; simp [ha]⟩
      have : g ∈ sortByVersion ((sortByVersion (reconMarked (sortIntAsc db.versions) m.gs)).filter
          (fun g => g.applied == false)) := (sortByVersion_perm _).mem_iff.mpr hfil
      exact List.mem_append.mpr (Or.inr (List.mem_map_of_mem Migration.Version this))

/-- C7: applying with nothing pending is a no-op success, and a second
UpAll right after a successful one leaves the bookkeeping state unchanged
(whatever the second session's driver oracles do). -/
theorem c7_upall_idempotent (m : Migrator) (so : SessionOracle) (orc : Nat → TxOracle)
    (db : DBState)
    (hnd : (versionsOf m.gs).Nodup)
    (hknown : ∀ w ∈ db.versions, w ∈ versionsOf m.gs)
    (h1 : so.openRes = .ok) (h2 : so.lockRes = .ok) (h3 : so.existsRes = .ok)
    (h5 : so.queryRes = .ok) (ht : db.hasTable = true) :
    ((∀ g ∈ m.gs, g.Version ∈ db.versions) →
      (m.UpAll so orc db).res = none ∧ (m.UpAll so orc db).db = db ∧
      (m.UpAll so orc db).executed = []) ∧
    ((m.UpAll so orc db).res = none →
      ∀ (so2 : SessionOracle) (orc2 : Nat → TxOracle),
        ((m.UpAll so orc db).mg.UpAll so2 orc2 (m.UpAll so orc db).db).db =
          (m.UpAll so orc db).db) := by
  constructor
  · intro hall
    have hrec := reconcileLoop_reset (sortIntAsc db.versions) m.gs hnd
      (fun w hw => hknown w ((mem_sortIntAsc _ _).mp hw))
    have hpend : ((sortByVersion (reconMarked (sortIntAsc db.versions) m.gs)).filter
        (fun g => g.applied == false)) = [] := by
      apply filter_unapplied_nil
      intro g hg
      exact reconMarked_applied_of_mem (sortIntAsc db.versions) m.gs
        (fun g' hg' => (mem_sortIntAsc _ _).mpr (hall g' hg')) g
        ((sortByVersion_perm _).mem_iff.mp hg)
    unfold Migrator.UpAll
    rw [runSession_ok_path m so orc db (.up 0)
      (reconMarked (sortIntAsc db.versions) m.gs) h1 h2 h3 h5 ht hrec]
    simp only [runBody, hpend]
    obtain ⟨tb, vers⟩ := db
    simp only at ht
    subst ht
    refine ⟨rfl, ?_, rfl⟩
    show (⟨true, (applyLoop 0 orc 0 vers (sortByVersion [])).st⟩ : DBState) = ⟨true, vers⟩
    simp [sortByVersion, List.insertionSort, applyLoop]
  · intro hres so2 orc2
    obtain ⟨hnd2, ht2, hknown2, hall2⟩ :=
      upAll_success_closure m so orc db hnd hknown h1 h2 h3 h5 ht hres
    exact runSession_noPending_db (m.UpAll so orc db).mg (m.UpAll so orc db).db
      hnd2 ht2 hknown2 hall2 so2 orc2 0

theorem c7_upall_idempotent_witness :
    ((mFix.UpAll soOk orcOk ⟨true, [1, 2, 3]⟩).res = none ∧
      (mFix.UpAll soOk orcOk ⟨true, [1, 2, 3]⟩).db = ⟨true, [1, 2, 3]⟩ ∧
      (mFix.UpAll soOk orcOk ⟨true, [1, 2, 3]⟩).executed = []) ∧
    ((mFix.UpAll soOk orcOk ⟨true, []⟩).mg.UpAll soOk orcOk
        (mFix.UpAll soOk orcOk ⟨true, []⟩).db).db =
      (mFix.UpAll soOk orcOk ⟨true, []⟩).db := by
  constructor
  · exact (c7_upall_idempotent mFix soOk orcOk ⟨true, [1, 2, 3]⟩ (by decide) (by decide)
      rfl rfl rfl rfl rfl).1 (by decide)
  · exact (c7_upall_idempotent mFix soOk orcOk ⟨true, []⟩ (by decide) (by decide)
      rfl rfl rfl rfl rfl).2 (by decide) soOk orcOk



theorem reconcile_none_known (m : Migrator) (vs : List Int) (gsM' : List Migration)
    (hre : reconcileLoop (resetFlags m.gs) vs = (none, gsM')) :
    ∀ v ∈ vs, v ∈ versionsOf m.gs := by
  have h0 : (reconcileLoop (resetFlags m.gs) vs).1 = none := by rw [hre]
  rw [reconcileLoop_fst_none_iff] at h0
  intro v hv
  have := h0 v hv
  rwa [versionsOf_resetFlags] at this

theorem runSession_up_executed_fresh (m : Migrator) (so : SessionOracle)
    (orc : Nat → TxOracle) (db : DBState) (n : Nat)
    (hnd : (versionsOf m.gs).Nodup) (ht : db.hasTable = true) :
    ∀ g ∈ (runSession m so orc db (.up n)).executed, g.Version ∉ db.versions := by
  obtain ⟨o1, o2, o3, o4, o5, o6, o7⟩ := so
  cases o1 with
  | fail e => intro g hg; simp [runSession] at hg
  | ok =>
  cases o2 with
  | fail e => intro g hg; simp [runSession] at hg
  | ok =>
  cases o3 with
  | fail e => intro g hg; simp [runSession, teardownEvs] at hg
  | ok =>
  cases o5 with
  | fail e =>
    intro g hg
    obtain ⟨tb, vers⟩ := db
    simp only at ht
    subst ht
    simp [runSession, teardownEvs] at hg
  | ok =>
    rcases hre : reconcileLoop (resetFlags m.gs) (sortIntAsc db.versions) with ⟨eo, gsM'⟩
    cases eo with
    | some e =>
      intro g hg
      rw [runSession_reconcile_err m ⟨.ok, .ok, .ok, o4, .ok, o6, o7⟩ orc db _ e gsM'
        rfl rfl rfl rfl ht hre] at hg
      simp at hg
    | none =>
      have hknown' := reconcile_none_known m (sortIntAsc db.versions) gsM' hre
      have hre2 := reconcileLoop_reset (sortIntAsc db.versions) m.gs hnd hknown'
      rw [hre] at hre2
      have hM : gsM' = reconMarked (sortIntAsc db.versions) m.gs :=
        (Prod.mk.injEq _ _ _ _ ▸ hre2).2
      subst hM
      intro g hg
      rw [runSession_ok_path m ⟨.ok, .ok, .ok, o4, .ok, o6, o7⟩ orc db (.up n)
        (reconMarked (sortIntAsc db.versions) m.gs) rfl rfl rfl rfl ht hre] at hg
      have hg2 : g ∈ (runBody (.up n)
          (sortByVersion (reconMarked (sortIntAsc db.versions) m.gs)) orc
          db.versions).executed := hg
      simp only [runBody] at hg2
      have hsub := applyLoop_executed_sub n orc 0 db.versions _ g hg2
      have hfil := (sortByVersion_perm _).mem_iff.mp hsub
      rw [List.mem_filter] at hfil
      obtain ⟨hmem, happ⟩ := hfil
      have hgM := (sortByVersion_perm _).mem_iff.mp hmem
      have hiff := reconMarked_mem_applied_iff (sortIntAsc db.versions) m.gs g hgM
      intro hv
      have : g.applied = true := hiff.mpr ((mem_sortIntAsc _ _).mpr hv)
      rw [this] at happ
      simp at happ

theorem runSession_up_success_decomp (m : Migrator) (so : SessionOracle)
    (orc : Nat → TxOracle) (db : DBState) (n : Nat)
    (hnd : (versionsOf m.gs).Nodup) (ht : db.hasTable = true)
    (hres : (runSession m so orc db (.up n)).res = none) :
    (versionsOf (runSession m so orc db (.up n)).mg.gs).Nodup ∧
    (runSession m so orc db (.up n)).db.hasTable = true ∧
    (∀ g ∈ (runSession m so orc db (.up n)).executed,
      g.Version ∈ (runSession m so orc db (.up n)).db.versions) := by
  obtain ⟨o1, o2, o3, o4, o5, o6, o7⟩ := so
  cases o1 with
  | fail e => simp [runSession] at hres
  | ok =>
  cases o2 with
  | fail e => simp [runSession] at hres
  | ok =>
  cases o3 with
  | fail e => simp [runSession, teardownEvs] at hres
  | ok =>
  cases o5 with
  | fail e =>
    obtain ⟨tb, vers⟩ := db
    simp only at ht
    subst ht
    simp [runSession, teardownEvs] at hres
  | ok =>
    rcases hre : reconcileLoop (resetFlags m.gs) (sortIntAsc db.versions) with ⟨eo, gsM'⟩
    cases eo with
    | some e =>
      rw [runSession_reconcile_err m ⟨.ok, .ok, .ok, o4, .ok, o6, o7⟩ orc db _ e gsM'
        rfl rfl rfl rfl ht hre] at hres
      simp at hres
    | none =>
      have hknown' := reconcile_none_known m (sortIntAsc db.versions) gsM' hre
      have hre2 := reconcileLoop_reset (sortIntAsc db.versions) m.gs hnd hknown'
      rw [hre] at hre2
      have hM : gsM' = reconMarked (sortIntAsc db.versions) m.gs :=
        (Prod.mk.injEq _ _ _ _ ▸ hre2).2
      subst hM
      have hpath := runSession_ok_path m ⟨.ok, .ok, .ok, o4, .ok, o6, o7⟩ orc db (.up n)
        (reconMarked (sortIntAsc db.versions) m.gs) rfl rfl rfl rfl ht hre
      rw [hpath] at hres ⊢
      have hres' : (runBody (.up n)
          (sortByVersion (reconMarked (sortIntAsc db.versions) m.gs)) orc
          db.versions).err = none := hres
      simp only [runBody] at hres' ⊢
      have hst := applyLoop_err_none_st n orc 0 db.versions _ hres'
      refine ⟨?_, by trivial, ?_⟩
      · have p1 := versionsOf_perm_of_perm
          (sortByVersion_perm (reconMarked (sortIntAsc db.versions) m.gs))
        rw [versionsOf_reconMarked] at p1
        exact (List.Perm.nodup_iff p1).mpr hnd
      · intro g hg
        rw [hst]
        exact List.mem_append.mpr (Or.inr (List.mem_map_of_mem Migration.Version hg))

/-- C5: only one session can be inside the locked (reconcile-through-execute)
region at any time, and when two forward sessions are serialized the second
one reconciles against the first one's committed bookkeeping rows, so no
version is executed by both sessions. -/
theorem c5_mutual_exclusion (m : Migrator) (so1 so2 : SessionOracle)
    (orc1 orc2 : Nat → TxOracle) (db : DBState) (n1 n2 : Nat)
    (hnd : (versionsOf m.gs).Nodup) (ht : db.hasTable = true)
    (hres1 : (runSession m so1 orc1 db (.up n1)).res = none) :
    (∀ (tr : List (Bool × LAct)) (st' : LockSt), lsteps lockInit tr = some st' →
      ¬(inRegion st'.rem1 = true ∧ inRegion st'.rem2 = true)) ∧
    (∀ v, v ∈ versionsOf (runSession (runSession m so1 orc1 db (.up n1)).mg so2 orc2
        (runSession m so1 orc1 db (.up n1)).db (.up n2)).executed →
      v ∉ versionsOf (runSession m so1 orc1 db (.up n1)).executed) := by
  constructor
  · have hall : ∀ st ∈ reachSts,
        ¬(inRegion st.rem1 = true ∧ inRegion st.rem2 = true) := by decide
    intro tr st' h
    exact hall st' (lsteps_reach tr lockInit st' lockInit_reach h)
  · obtain ⟨hnd2, ht2, hcomm⟩ :=
      runSession_up_success_decomp m so1 orc1 db n1 hnd ht hres1
    intro v hv2 hv1
    obtain ⟨g2, hg2, rfl⟩ := List.mem_map.mp hv2
    have hfresh := runSession_up_executed_fresh (runSession m so1 orc1 db (.up n1)).mg so2
      orc2 (runSession m so1 orc1 db (.up n1)).db n2 hnd2 ht2 g2 hg2
    obtain ⟨g1, hg1, hveq⟩ := List.mem_map.mp hv1
    exact hfresh (hveq ▸ hcomm g1 hg1)

theorem c5_mutual_exclusion_witness :
    ¬(inRegion (⟨some true, [LAct.execA, LAct.unlockA], sessionProg⟩ : LockSt).rem1 = true ∧
      inRegion (⟨some true, [LAct.execA, LAct.unlockA], sessionProg⟩ : LockSt).rem2 = true) ∧
    ¬((3 : Int) ∈ versionsOf (runSession
        (runSession mFix soOk orcOk ⟨true, [1]⟩ (.up 1)).mg soOk orcOk
        (runSession mFix soOk orcOk ⟨true, [1]⟩ (.up 1)).db (.up 1)).executed ∧
      (3 : Int) ∈ versionsOf (runSession mFix soOk orcOk ⟨true, [1]⟩ (.up 1)).executed) := by
  have h := c5_mutual_exclusion mFix soOk soOk orcOk orcOk ⟨true, [1]⟩ 1 1
    (by decide) rfl (by decide)
  constructor
  · exact h.1 [(true, LAct.lockA), (true, LAct.reconcileA)] _ (by decide)
  · intro hc
    exact h.2 3 hc.1 hc.2



/-- C8: once the lock was acquired, the trace always ends with the unlock
attempt followed by the connection close, and a failing unlock changes
neither the result nor the bookkeeping state nor the executed migrations. -/
theorem c8_teardown (m : Migrator) (so : SessionOracle) (orc : Nat → TxOracle)
    (db : DBState) (op : Op) :
    (Ev.locked ∈ (runSession m so orc db op).evs →
      (runSession m so orc db op).evs =
        [Ev.connected, Ev.locked, Ev.unlockAttempt so.unlockRes.isOk, Ev.closed]) ∧
    (∀ e, (runSession m { so with unlockRes := .fail e } orc db op).res =
        (runSession m so orc db op).res ∧
      (runSession m { so with unlockRes := .fail e } orc db op).db =
        (runSession m so orc db op).db ∧
      (runSession m { so with unlockRes := .fail e } orc db op).executed =
        (runSession m so orc db op).executed) := by
  obtain ⟨tb, vers⟩ := db
  obtain ⟨o1, o2, o3, o4, o5, o6, o7⟩ := so
  cases o1 <;> cases o2 <;> cases o3 <;> cases o4 <;> cases o5 <;> cases tb <;>
    simp only [runSession, teardownEvs, ExecRes.isOk] <;>
    first
      | (simp; done)
      | ((rcases hre : reconcileLoop (resetFlags m.gs) (sortIntAsc vers) with ⟨eo, gsp⟩ <;>
          cases eo <;> simp [hre]); done)
      | ((rcases hre : reconcileLoop (resetFlags m.gs) (sortIntAsc []) with ⟨eo, gsp⟩ <;>
          cases eo <;> simp [hre]); done)
      | simp

theorem c8_teardown_witness :
    (runSession mFix soOk orcOk ⟨true, []⟩ (.up 0)).evs =
      [Ev.connected, Ev.locked, Ev.unlockAttempt true, Ev.closed] ∧
    (runSession mFix { soOk with unlockRes := .fail "lost" } orcOk ⟨true, []⟩ (.up 0)).res =
      (runSession mFix soOk orcOk ⟨true, []⟩ (.up 0)).res := by
  have h := c8_teardown mFix soOk orcOk ⟨true, []⟩ (.up 0)
  exact ⟨h.1 (by decide), (h.2 "lost").1⟩

/-- C9 counterexample: two runs failing on different migrations return the
very same error value, so the returned error alone cannot identify the
failing migration's version or name. -/
theorem c9_counterexample :
    (runSession ((NewMigrator "u").Add [mig1]) soOk (orcFailAt 0 "boom")
      ⟨true, []⟩ (.up 0)).res = some "boom" ∧
    (runSession ((NewMigrator "u").Add [mig2]) soOk (orcFailAt 0 "boom")
      ⟨true, []⟩ (.up 0)).res = some "boom" ∧
    mig1.Version ≠ mig2.Version ∧ mig1.Name ≠ mig2.Name := by
  refine ⟨by decide, by decide, by decide, by decide⟩

/-- C9 amended: when a script fails, the raw driver error is what the run
returns, while the migration's version and name are written to the log
(`upFailLog`/`downFailLog` embed `migString`, which is built from the
version and the name). -/
theorem c9_script_error_logged (g : Migration) (st : List Int) (e : String)
    (orc : Nat → TxOracle) (n : Nat) (rest : List Migration)
    (hb : (orc 0).beginRes = .ok) (hs : (orc 0).scriptRes = .fail e) :
    (applyLoop n orc 0 st (g :: rest)).err = some e ∧
    upFailLog g e ∈ (applyLoop n orc 0 st (g :: rest)).logs ∧
    (revertLoop n orc 0 st (g :: rest)).err = some e ∧
    downFailLog g e ∈ (revertLoop n orc 0 st (g :: rest)).logs := by
  have hbreak : ¬(n > 0 ∧ 0 ≥ n) := by omega
  have ha : applyStep st g (orc 0) = (.error e, [upFailLog g e, "source: " ++ g.Up]) := by
    simp [applyStep, hb, hs]
  have hr : revertStep st g (orc 0) =
      (.error e, [downFailLog g e, "source: " ++ g.Down]) := by
    simp [revertStep, hb, hs]
  rw [applyLoop_cons, if_neg hbreak, ha, revertLoop_cons, if_neg hbreak, hr]
  simp

theorem c9_script_error_logged_witness :
    (applyLoop 0 (orcFailAt 0 "boom") 0 [] [mig1]).err = some "boom" ∧
    upFailLog mig1 "boom" ∈ (applyLoop 0 (orcFailAt 0 "boom") 0 [] [mig1]).logs := by
  have h := c9_script_error_logged mig1 [] "boom" (orcFailAt 0 "boom") 0 []
    (by decide) (by decide)
  exact ⟨h.1, h.2.1⟩

end PgMigrate
